import Mathlib

/-!
Shallow embedding of `src/libdebug/cffi/ptrace_cffi_source.c`, the ptrace
backend of libdebug: thread table, software-breakpoint table, and the
run/stop engine (`step_until`, `cont_all_and_set_bps`,
`wait_all_and_update_regs`, `register_breakpoint`, `disable_breakpoint`).

Machine words (`uint64_t`) are modelled as `Nat`; the kernel side
(ptrace results, wait statuses) is modelled by explicit oracles so that
each C function becomes a pure Lean function from the tracer state and
the oracle to the new state, the C return value, and the trace of kernel
calls it issued (the "mock observations").
-/

namespace Ptrace

/-- A register snapshot (`struct user_regs_struct`). The core treats it as
opaque except for the instruction pointer, which the architecture adapter
extracts; we model the snapshot as the IP together with an opaque rest. -/
structure Regs where
  ip : Nat
  rest : Nat := 0
deriving DecidableEq, Repr

/-- `INSTRUCTION_POINTER(regs)`: the architecture adapter's IP extractor. -/
def INSTRUCTION_POINTER (r : Regs) : Nat := r.ip

/-- A node of the thread list rooted at `t_HEAD` (`struct thread`). -/
structure Thread where
  tid : Int
  regs : Regs
deriving DecidableEq, Repr

/-- A node of the breakpoint list rooted at `b_HEAD`
(`struct software_breakpoint`). -/
structure SWBreakpoint where
  addr : Nat
  instruction : Nat
  patched_instruction : Nat
  enabled : Bool
deriving DecidableEq, Repr

/-- An element of the list returned by `wait_all_and_update_regs`
(`struct thread_status`). -/
structure ThreadStatus where
  tid : Int
  status : Int
deriving DecidableEq, Repr

/-- Tracee memory, one word per address (`PTRACE_PEEKDATA`/`POKEDATA`). -/
def Mem : Type := Nat → Nat

/-- Kernel-side register state, one snapshot per tid (what `PTRACE_SETREGS`
writes and `PTRACE_GETREGS` reads). -/
def KernRegs : Type := Int → Regs

/-- Pointwise memory update, the effect of a successful `PTRACE_POKEDATA`. -/
def memUpd (m : Mem) (a v : Nat) : Mem := fun x => if x = a then v else m x

/-- Kernel register update, the effect of a successful `PTRACE_SETREGS`. -/
def kernUpd (k : KernRegs) (tid : Int) (r : Regs) : KernRegs :=
  fun x => if x = tid then r else k x

/-- One kernel call as observed by a mock of the tracing facade. -/
inductive Event where
  | setRegs (tid : Int)
  | getRegs (tid : Int)
  | singleStep (tid : Int)
  | cont (tid : Int)
  | waitFor (tid : Int)
  | waitAny
  | pokeData (addr : Nat) (val : Nat)
  | tgkill (tid : Int)
deriving DecidableEq, Repr

/-! ## Breakpoint table: `register_breakpoint`, `disable_breakpoint` -/

/-- The list search in `register_breakpoint`: if a record for `address`
already exists, set its `enabled` flag to 1 and stop; stored words are not
touched. Returns `none` when no record matches (the C code then allocates
a fresh node). -/
def markEnabled (address : Nat) : List SWBreakpoint → Option (List SWBreakpoint)
  | [] => none
  | b :: rest =>
    if b.addr = address then some ({ b with enabled := true } :: rest)
    else (markEnabled address rest).map (b :: ·)

/-- `register_breakpoint(pid, address)`: peek the word at `address`, compute
`INSTALL_BREAKPOINT` of it, poke the patched word, then either re-enable the
existing record or push a fresh one at the head of the list.
`installTrap` is the per-ISA `INSTALL_BREAKPOINT` macro, opaque to the core. -/
def register_breakpoint (installTrap : Nat → Nat) (bps : List SWBreakpoint)
    (mem : Mem) (address : Nat) : List SWBreakpoint × Mem :=
  let instruction := mem address
  let patched_instruction := installTrap instruction
  let mem' := memUpd mem address patched_instruction
  match markEnabled address bps with
  | some bps' => (bps', mem')
  | none =>
      (⟨address, instruction, patched_instruction, true⟩ :: bps, mem')

/-- `disable_breakpoint(pid, address)`: find the first record for `address`;
if found, clear its `enabled` flag and poke its PATCHED word into tracee
memory; if absent, do nothing. -/
def disable_breakpoint (bps : List SWBreakpoint) (mem : Mem) (address : Nat) :
    List SWBreakpoint × Mem :=
  match bps with
  | [] => ([], mem)
  | b :: rest =>
    if b.addr = address then
      ({ b with enabled := false } :: rest,
       memUpd mem address b.patched_instruction)
    else
      let p := disable_breakpoint rest mem address
      (b :: p.1, p.2)

/-- A user-driven operation on the breakpoint table at a fixed address,
for reasoning about install/disable/install sequences. -/
inductive BpOp where
  | install
  | disable
deriving DecidableEq, Repr

/-- Run a sequence of `register_breakpoint` / `disable_breakpoint` calls,
all at the same address, against the table and tracee memory. -/
def runBpOps (installTrap : Nat → Nat) (address : Nat) :
    List BpOp → List SWBreakpoint × Mem → List SWBreakpoint × Mem
  | [], st => st
  | op :: ops, st =>
    let st' :=
      match op with
      | .install => register_breakpoint installTrap st.1 st.2 address
      | .disable => disable_breakpoint st.1 st.2 address
    runBpOps installTrap address ops st'

/-! ## `step_until` -/

/-- The kernel's behavior during a `step_until` run: `ssFail k` says whether
the `k`-th `PTRACE_SINGLESTEP` call of the loop returns nonzero, and
`ipSeq k` is the register snapshot `PTRACE_GETREGS` reads back after the
`k`-th successful single step. -/
structure StepOracle where
  ssFail : Nat → Bool
  ipSeq : Nat → Regs

/-- Outcome of the `while` loop of `step_until`. -/
structure LoopRes where
  ret : Int
  regs : Regs
  nSteps : Nat
  count : Int
  events : List Event
deriving DecidableEq, Repr

/-- The `while (max_steps == -1 || count < max_steps)` loop of `step_until`:
single-step, wait, remember the cached IP, refresh the cache from the
kernel; exit with success on reaching `addr`; re-step without counting when
the IP did not move; otherwise count the step. `n` indexes the oracle
(single steps issued so far), `cur` is the cached snapshot of the stepping
thread. `fuel` bounds the recursion; `none` means the loop had not exited
within `fuel` iterations. -/
def stepLoop (oc : StepOracle) (tid : Int) (addr : Nat) (maxSteps : Int)
    (n : Nat) (count : Int) (cur : Regs) : Nat → Option LoopRes
  | 0 => none
  | fuel + 1 =>
    if maxSteps = -1 ∨ count < maxSteps then
      if oc.ssFail n then
        some ⟨-1, cur, n, count, [Event.singleStep tid]⟩
      else
        let new := oc.ipSeq n
        let evs := [Event.singleStep tid, Event.waitFor tid, Event.getRegs tid]
        if INSTRUCTION_POINTER new = addr then
          some ⟨0, new, n + 1, count, evs⟩
        else if INSTRUCTION_POINTER new = INSTRUCTION_POINTER cur then
          (stepLoop oc tid addr maxSteps (n + 1) count new fuel).map
            (fun r => { r with events := evs ++ r.events })
        else
          (stepLoop oc tid addr maxSteps (n + 1) (count + 1) new fuel).map
            (fun r => { r with events := evs ++ r.events })
    else
      some ⟨0, cur, n, count, []⟩

/-- The register flush at the top of `step_until` / `singlestep` /
`cont_all_and_set_bps`: write every cached snapshot to the kernel, in list
order. -/
def flushRegs (kern : KernRegs) : List Thread → KernRegs
  | [] => kern
  | t :: ts => flushRegs (kernUpd kern t.tid t.regs) ts

/-- The `stepping_thread` pointer computed by the flush loop of
`step_until`: the LAST node of the list whose tid matches (the loop keeps
overwriting the pointer). -/
def steppingThread (tid : Int) (threads : List Thread) : Option Thread :=
  threads.reverse.find? (fun t => t.tid = tid)

/-- Write `r` into the cached snapshot of the last node matching `tid`,
mirroring the in-place `GETREGS` into `stepping_thread->regs`. -/
def setLastRegs (tid : Int) (r : Regs) (threads : List Thread) : List Thread :=
  (go threads.reverse).reverse
where
  go : List Thread → List Thread
    | [] => []
    | t :: ts => if t.tid = tid then { t with regs := r } :: ts else t :: go ts

/-- Result of `step_until`: C return value, the two tables, the kernel
register file, the observed kernel calls, and (as ghost outputs) the final
values of the loop locals: total single steps issued and the final `count`. -/
structure StepUntilRes where
  ret : Int
  threads : List Thread
  bps : List SWBreakpoint
  kern : KernRegs
  events : List Event
  nSteps : Nat
  count : Int

/-- `step_until(tid, addr, max_steps)`: flush every cached snapshot to the
kernel (this also locates `stepping_thread`), fail with -1 when `tid` is not
in the table, otherwise run the step loop. The breakpoint list `bps` is the
global `b_HEAD`, which the C function never reads or writes. `none` only
when the loop ran out of `fuel`. -/
def step_until (oc : StepOracle) (threads : List Thread)
    (bps : List SWBreakpoint) (kern : KernRegs) (tid : Int) (addr : Nat)
    (maxSteps : Int) (fuel : Nat) : Option StepUntilRes :=
  let kern' := flushRegs kern threads
  let flushEvs := threads.map (fun t => Event.setRegs t.tid)
  match steppingThread tid threads with
  | none => some ⟨-1, threads, bps, kern', flushEvs, 0, 0⟩
  | some st =>
    (stepLoop oc tid addr maxSteps 0 0 st.regs fuel).map fun r =>
      ⟨r.ret, setLastRegs tid r.regs threads, bps, kern',
       flushEvs ++ r.events, r.nSteps, r.count⟩

/-! ## `cont_all_and_set_bps` -/

/-- Kernel behavior during `cont_all_and_set_bps`: whether the first
`PTRACE_SINGLESTEP` of a thread's step-off fails, and the statuses returned
by the first and (after a 4991) second `waitpid` on that thread. -/
structure ContOracle where
  ssFail : Int → Bool
  status1 : Int → Int
  status2 : Int → Int

/-- Does the cached IP sit on some breakpoint record's address? (The C
check ignores the `enabled` flag.) -/
def hitBp (bps : List SWBreakpoint) (ip : Nat) : Bool :=
  bps.any (fun b => b.addr = ip)

/-- The step-off pass of `cont_all_and_set_bps`: for each thread whose
cached IP sits on a breakpoint, single-step and wait; when the wait status
is the literal 4991 (stopped by SIGSTOP), step and wait once more. Returns
whether a failing single step aborted the function, the final `status`
variable, and the events issued. -/
def stepOff (oc : ContOracle) (bps : List SWBreakpoint) :
    List Thread → Int → Bool × Int × List Event
  | [], status => (false, status, [])
  | t :: ts, status =>
    if hitBp bps (INSTRUCTION_POINTER t.regs) then
      if oc.ssFail t.tid then (true, status, [Event.singleStep t.tid])
      else
        let s1 := oc.status1 t.tid
        if s1 = 4991 then
          let p := stepOff oc bps ts (oc.status2 t.tid)
          (p.1, p.2.1,
           [Event.singleStep t.tid, Event.waitFor t.tid,
            Event.singleStep t.tid, Event.waitFor t.tid] ++ p.2.2)
        else
          let p := stepOff oc bps ts s1
          (p.1, p.2.1,
           [Event.singleStep t.tid, Event.waitFor t.tid] ++ p.2.2)
    else stepOff oc bps ts status

/-- The arming pass: poke each enabled record's patched word. -/
def armBps (mem : Mem) : List SWBreakpoint → Mem × List Event
  | [] => (mem, [])
  | b :: bs =>
    if b.enabled then
      let p := armBps (memUpd mem b.addr b.patched_instruction) bs
      (p.1, Event.pokeData b.addr b.patched_instruction :: p.2)
    else armBps mem bs

/-- `cont_all_and_set_bps(pid)`: flush registers, step threads off
breakpoints, arm every enabled breakpoint, continue every thread. Returns
the C return value (the last wait status, or -1 when a step-off's
single step failed), the new kernel register file and memory, and the
events. An abort skips arming and continuing. -/
def cont_all_and_set_bps (oc : ContOracle) (threads : List Thread)
    (bps : List SWBreakpoint) (kern : KernRegs) (mem : Mem) :
    Int × KernRegs × Mem × List Event :=
  let kern' := flushRegs kern threads
  let flushEvs := threads.map (fun t => Event.setRegs t.tid)
  let so := stepOff oc bps threads 0
  if so.1 then (-1, kern', mem, flushEvs ++ so.2.2)
  else
    let armed := armBps mem bps
    let contEvs := threads.map (fun t => Event.cont t.tid)
    (so.2.1, kern', armed.1, flushEvs ++ so.2.2 ++ armed.2 ++ contEvs)

/-! ## `wait_all_and_update_regs` -/

/-- Kernel behavior during `wait_all_and_update_regs`: the result of the
primary blocking `waitpid(-1)`, which probe `PTRACE_GETREGS` calls fail
(thread still running), the snapshots successful `GETREGS` reads, the
result of the `waitpid` after each targeted `SIGSTOP`, the successive
results of the non-blocking `waitpid(-1, WNOHANG)` drain (a non-positive
tid, or the end of the list, ends the drain), and which final `GETREGS`
calls fail. -/
structure WaitOracle where
  primaryTid : Int
  primaryStatus : Int
  probeFails : Int → Bool
  kernRegs : Int → Regs
  stopTid : Int → Int
  stopStatus : Int → Int
  drainList : List (Int × Int)
  finalFails : Int → Bool

/-- The SIGSTOP-probe pass: for every thread whose tid differs from the
CURRENT head of the status list, try `GETREGS`; on success refresh its
cached snapshot, on failure send `tgkill(SIGSTOP)`, wait, and PREPEND the
collected status to the list. The status list is carried as head `hd` plus
tail `tl` (it is never empty: it starts with the primary event). Note the
C loop compares against `head->tid`, and `head` moves every time a status
is prepended — so the skip test tracks the last prepended status's tid,
not the primary tid. Returns the status list, the updated thread list, and
the events. -/
def probePass (oc : WaitOracle) :
    List Thread → ThreadStatus → List ThreadStatus →
      (ThreadStatus × List ThreadStatus) × List Thread × List Event
  | [], hd, tl => ((hd, tl), [], [])
  | t :: ts, hd, tl =>
    if t.tid = hd.tid then
      let p := probePass oc ts hd tl
      (p.1, t :: p.2.1, p.2.2)
    else if oc.probeFails t.tid then
      let p := probePass oc ts ⟨oc.stopTid t.tid, oc.stopStatus t.tid⟩
        (hd :: tl)
      (p.1, t :: p.2.1,
       [Event.getRegs t.tid, Event.tgkill t.tid, Event.waitFor t.tid] ++ p.2.2)
    else
      let p := probePass oc ts hd tl
      (p.1, { t with regs := oc.kernRegs t.tid } :: p.2.1,
       Event.getRegs t.tid :: p.2.2)

/-- The non-blocking drain: keep polling `waitpid(-1, WNOHANG)` while it
returns a positive tid, PREPENDING each event to the status list (carried
as head plus tail). -/
def drainPass : List (Int × Int) → ThreadStatus → List ThreadStatus →
    (ThreadStatus × List ThreadStatus) × List Event
  | [], hd, tl => ((hd, tl), [Event.waitAny])
  | (tid, st) :: rest, hd, tl =>
    if 0 < tid then
      let p := drainPass rest ⟨tid, st⟩ (hd :: tl)
      (p.1, Event.waitAny :: p.2)
    else ((hd, tl), [Event.waitAny])

/-- The final register refresh: `GETREGS` every thread into its cached
snapshot; a failure (thread exited) leaves the cache unchanged. -/
def finalGetRegs (oc : WaitOracle) : List Thread → List Thread × List Event
  | [] => ([], [])
  | t :: ts =>
    let t' := if oc.finalFails t.tid then t else { t with regs := oc.kernRegs t.tid }
    let p := finalGetRegs oc ts
    (t' :: p.1, Event.getRegs t.tid :: p.2)

/-- The restore pass: poke each enabled record's ORIGINAL word back. -/
def disarmBps (mem : Mem) : List SWBreakpoint → Mem × List Event
  | [] => (mem, [])
  | b :: bs =>
    if b.enabled then
      let p := disarmBps (memUpd mem b.addr b.instruction) bs
      (p.1, Event.pokeData b.addr b.instruction :: p.2)
    else disarmBps mem bs

/-- `wait_all_and_update_regs(pid)`: one blocking `waitpid(-1)` (return the
null list if it fails), SIGSTOP-probe every other thread, drain pending
events non-blockingly, refresh every cached snapshot, and poke every
enabled breakpoint's original word back into tracee memory. Returns the
event list (newest first), the updated thread list, the memory, and the
observed kernel calls. -/
def wait_all_and_update_regs (oc : WaitOracle) (threads : List Thread)
    (bps : List SWBreakpoint) (mem : Mem) :
    Option (List ThreadStatus) × List Thread × Mem × List Event :=
  if oc.primaryTid = -1 then (none, threads, mem, [Event.waitAny])
  else
    let p := probePass oc threads ⟨oc.primaryTid, oc.primaryStatus⟩ []
    let d := drainPass oc.drainList p.1.1 p.1.2
    let f := finalGetRegs oc p.2.1
    let r := disarmBps mem bps
    (some (d.1.1 :: d.1.2), f.1, r.1,
     Event.waitAny :: (p.2.2 ++ d.2 ++ f.2 ++ r.2))

/-! ## Helper lemmas -/

theorem kernUpd_same (k : KernRegs) (tid : Int) (r : Regs) :
    kernUpd k tid r tid = r := by
  simp [kernUpd]

theorem kernUpd_other (k : KernRegs) (tid x : Int) (r : Regs) (h : x ≠ tid) :
    kernUpd k tid r x = k x := by
  simp [kernUpd, h]

theorem memUpd_same (m : Mem) (a v : Nat) : memUpd m a v a = v := by
  simp [memUpd]

theorem memUpd_other (m : Mem) (a x v : Nat) (h : x ≠ a) :
    memUpd m a v x = m x := by
  simp [memUpd, h]

theorem flushRegs_not_mem (k : KernRegs) (ts : List Thread) (x : Int)
    (h : ∀ t ∈ ts, t.tid ≠ x) : flushRegs k ts x = k x := by
  induction ts generalizing k with
  | nil => rfl
  | cons t rest ih =>
    rw [flushRegs, ih _ (fun s hs => h s (List.mem_cons_of_mem _ hs))]
    exact kernUpd_other _ _ _ _ (fun hx => h t (List.mem_cons_self _ _) hx.symm)

theorem flushRegs_mem (k : KernRegs) (ts : List Thread)
    (hnd : (ts.map Thread.tid).Nodup) (t : Thread) (ht : t ∈ ts) :
    flushRegs k ts t.tid = t.regs := by
  induction ts generalizing k with
  | nil => cases ht
  | cons u rest ih =>
    rw [List.map_cons, List.nodup_cons] at hnd
    rcases List.mem_cons.mp ht with h | h
    · subst h
      rw [flushRegs, flushRegs_not_mem]
      · exact kernUpd_same _ _ _
      · intro s hs he
        exact hnd.1 (he ▸ List.mem_map_of_mem Thread.tid hs)
    · exact ih _ hnd.2 h

theorem steppingThread_eq_none (tid : Int) (threads : List Thread)
    (h : ∀ t ∈ threads, t.tid ≠ tid) : steppingThread tid threads = none := by
  rw [steppingThread, List.find?_eq_none]
  intro t ht
  simpa using h t (List.mem_reverse.mp ht)

/-! ## C5: `disable_breakpoint` -/

/-- C5: when a record for `addr` exists, `disable_breakpoint(pid, addr)`
clears that record's `enabled` flag, writes the record's `patched_word`
(not the original word) into tracee memory at `addr`, leaves the stored
words of every record unchanged, and touches no other memory address. -/
theorem C5_disable_breakpoint_writes_patched
    (bps : List SWBreakpoint) (mem : Mem) (a : Nat) (b : SWBreakpoint)
    (hb : b ∈ bps) (ha : b.addr = a)
    (hnd : (bps.map SWBreakpoint.addr).Nodup) :
    (disable_breakpoint bps mem a).1 =
      bps.map (fun c => if c.addr = a then { c with enabled := false } else c) ∧
    (disable_breakpoint bps mem a).2 a = b.patched_instruction ∧
    ∀ x, x ≠ a → (disable_breakpoint bps mem a).2 x = mem x := by
  induction bps with
  | nil => cases hb
  | cons c rest ih =>
    rw [List.map_cons, List.nodup_cons] at hnd
    by_cases hc : c.addr = a
    · have hbc : b = c := by
        rcases List.mem_cons.mp hb with h | h
        · exact h
        · refine absurd ?_ hnd.1
          rw [hc, ← ha]
          exact List.mem_map_of_mem SWBreakpoint.addr h
      subst hbc
      have hrest : ∀ d ∈ rest, d.addr ≠ a := by
        intro d hd he
        exact hnd.1 (hc ▸ he ▸ List.mem_map_of_mem SWBreakpoint.addr hd)
      have hmap : rest.map
          (fun d => if d.addr = a then { d with enabled := false } else d) = rest := by
        have := List.map_congr_left (l := rest)
          (f := fun d => if d.addr = a then { d with enabled := false } else d)
          (g := id) (fun d hd => by simp [hrest d hd])
        simpa using this
      refine ⟨?_, ?_, ?_⟩
      · simp [disable_breakpoint, hc, hmap]
      · simp [disable_breakpoint, hc, memUpd_same]
      · intro x hx
        simp [disable_breakpoint, hc, memUpd_other _ _ _ _ hx]
    · have hbr : b ∈ rest := by
        rcases List.mem_cons.mp hb with h | h
        · exact absurd (h ▸ ha) hc
        · exact h
      obtain ⟨ih1, ih2, ih3⟩ := ih hbr hnd.2
      refine ⟨?_, ?_, ?_⟩
      · simp [disable_breakpoint, hc, ih1]
      · simpa [disable_breakpoint, hc] using ih2
      · intro x hx
        simpa [disable_breakpoint, hc] using ih3 x hx

/-- Concrete instance of C5: disabling the breakpoint at address 16 whose
stored words are (5, 7) writes 7 (the patched word) at 16, flips the flag,
and leaves address 5 alone. -/
theorem C5_witness :
    (disable_breakpoint [⟨16, 5, 7, true⟩] (fun _ => 0) 16).1 =
      [⟨16, 5, 7, false⟩] ∧
    (disable_breakpoint [⟨16, 5, 7, true⟩] (fun _ => 0) 16).2 16 = 7 ∧
    (disable_breakpoint [⟨16, 5, 7, true⟩] (fun _ => 0) 16).2 5 = 0 := by
  have h := C5_disable_breakpoint_writes_patched [⟨16, 5, 7, true⟩]
    (fun _ => 0) 16 ⟨16, 5, 7, true⟩ (by decide) rfl (by decide)
  exact ⟨h.1, h.2.1, h.2.2 5 (by decide)⟩

/-! ## C8: failed primary `waitpid` in `wait_all_and_update_regs` -/

/-- C8: if the primary blocking `waitpid(-1)` returns -1,
`wait_all_and_update_regs` returns the null list, the thread table and
tracee memory are untouched, and the only kernel call observed is that one
wait: no SIGSTOP probe (`tgkill`), no register refresh (`GETREGS`), no
breakpoint memory write (`POKEDATA`). -/
theorem C8_wait_fail_returns_null (oc : WaitOracle) (threads : List Thread)
    (bps : List SWBreakpoint) (mem : Mem) (h : oc.primaryTid = -1) :
    wait_all_and_update_regs oc threads bps mem =
      (none, threads, mem, [Event.waitAny]) := by
  rw [wait_all_and_update_regs, if_pos h]

/-- Concrete instance of C8: a failing primary wait on a one-thread,
one-breakpoint state returns the null list and changes nothing. -/
theorem C8_witness :
    wait_all_and_update_regs
      ⟨-1, 0, fun _ => false, fun _ => ⟨0, 0⟩, fun _ => 0, fun _ => 0, [],
       fun _ => false⟩
      [⟨7, ⟨16, 0⟩⟩] [⟨16, 5, 7, true⟩] (fun _ => 0) =
      (none, [⟨7, ⟨16, 0⟩⟩], fun _ => 0, [Event.waitAny]) :=
  C8_wait_fail_returns_null _ _ _ _ rfl

/-! ## C9, C10: `step_until` on an absent tid -/

/-- C9: when `tid` is not in the thread table, `step_until` returns -1,
the thread and breakpoint tables are unchanged, and the observed kernel
calls are exactly the register flush — in particular no single step is
issued. -/
theorem C9_step_until_absent_tid (oc : StepOracle) (threads : List Thread)
    (bps : List SWBreakpoint) (kern : KernRegs) (tid : Int) (addr : Nat)
    (maxSteps : Int) (fuel : Nat) (h : ∀ t ∈ threads, t.tid ≠ tid) :
    ∃ res, step_until oc threads bps kern tid addr maxSteps fuel = some res ∧
      res.ret = -1 ∧ res.threads = threads ∧ res.bps = bps ∧
      res.events = threads.map (fun t => Event.setRegs t.tid) ∧
      ∀ x, Event.singleStep x ∉ res.events := by
  refine ⟨_, by rw [step_until, steppingThread_eq_none tid threads h], rfl, rfl,
    rfl, rfl, ?_⟩
  intro x hx
  obtain ⟨t, _, ht⟩ := List.mem_map.mp hx
  cases ht

/-- Concrete instance of C9: stepping an unregistered tid 9 fails with -1
and leaves the one-thread table and the breakpoint table unchanged. -/
theorem C9_witness :
    ∃ res, step_until ⟨fun _ => false, fun k => ⟨k, 0⟩⟩ [⟨7, ⟨16, 0⟩⟩]
        [⟨16, 5, 7, true⟩] (fun _ => ⟨0, 0⟩) 9 32 4 10 = some res ∧
      res.ret = -1 ∧ res.threads = [⟨7, ⟨16, 0⟩⟩] ∧
      res.bps = [⟨16, 5, 7, true⟩] ∧
      res.events = [Event.setRegs 7] ∧
      ∀ x, Event.singleStep x ∉ res.events := by
  have h := C9_step_until_absent_tid ⟨fun _ => false, fun k => ⟨k, 0⟩⟩
    [⟨7, ⟨16, 0⟩⟩] [⟨16, 5, 7, true⟩] (fun _ => ⟨0, 0⟩) 9 32 4 10
    (by decide)
  simpa using h

/-- C10: `step_until` performs its `SETREGS` flush of every registered
thread before the `stepping_thread` check, so a call that fails because
`tid` is absent has still overwritten the kernel-side register state of
every registered thread with the cached snapshots. -/
theorem C10_flush_precedes_thread_check (oc : StepOracle)
    (threads : List Thread) (bps : List SWBreakpoint) (kern : KernRegs)
    (tid : Int) (addr : Nat) (maxSteps : Int) (fuel : Nat)
    (habs : ∀ t ∈ threads, t.tid ≠ tid)
    (hnd : (threads.map Thread.tid).Nodup) :
    ∃ res, step_until oc threads bps kern tid addr maxSteps fuel = some res ∧
      res.ret = -1 ∧ res.kern = flushRegs kern threads ∧
      (∀ t ∈ threads, res.kern t.tid = t.regs) ∧
      res.events = threads.map (fun t => Event.setRegs t.tid) := by
  refine ⟨_, by rw [step_until, steppingThread_eq_none tid threads habs], rfl,
    rfl, ?_, rfl⟩
  intro t ht
  exact flushRegs_mem kern threads hnd t ht

/-- Concrete instance of C10: the failing call on unregistered tid 9 has
already written thread 7's cached snapshot into the kernel. -/
theorem C10_witness :
    ∃ res, step_until ⟨fun _ => false, fun k => ⟨k, 0⟩⟩ [⟨7, ⟨16, 0⟩⟩]
        [] (fun _ => ⟨0, 0⟩) 9 32 4 10 = some res ∧
      res.ret = -1 ∧
      res.kern = flushRegs (fun _ => ⟨0, 0⟩) [⟨7, ⟨16, 0⟩⟩] ∧
      res.kern 7 = ⟨16, 0⟩ ∧
      res.events = [Event.setRegs 7] := by
  obtain ⟨res, h1, h2, h3, h4, h5⟩ := C10_flush_precedes_thread_check
    ⟨fun _ => false, fun k => ⟨k, 0⟩⟩ [⟨7, ⟨16, 0⟩⟩] [] (fun _ => ⟨0, 0⟩)
    9 32 4 10 (by decide) (by decide)
  exact ⟨res, h1, h2, h3, h4 ⟨7, ⟨16, 0⟩⟩ (List.mem_singleton.mpr rfl), by
    simpa using h5⟩

/-! ## Lemmas about `stepLoop` -/

theorem stepLoop_exhaust (oc : StepOracle) (tid : Int) (addr : Nat)
    (maxSteps : Int) (n : Nat) (count : Int) (cur : Regs) (fuel : Nat)
    (hng : ¬(maxSteps = -1 ∨ count < maxSteps)) :
    stepLoop oc tid addr maxSteps n count cur (fuel + 1) =
      some ⟨0, cur, n, count, []⟩ := by
  rw [stepLoop, if_neg hng]

theorem stepLoop_unbounded (oc : StepOracle) (tid : Int) (addr : Nat)
    (hss : ∀ k, oc.ssFail k = false) :
    ∀ fuel n count cur r,
      stepLoop oc tid addr (-1) n count cur fuel = some r →
      r.ret = 0 ∧ INSTRUCTION_POINTER r.regs = addr := by
  intro fuel
  induction fuel with
  | zero => intro n count cur r h; cases h
  | succ fuel ih =>
    intro n count cur r h
    rw [stepLoop, if_pos (Or.inl rfl)] at h
    rw [if_neg (by simp [hss n])] at h
    by_cases htgt : INSTRUCTION_POINTER (oc.ipSeq n) = addr
    · rw [if_pos htgt] at h
      cases h
      exact ⟨rfl, htgt⟩
    · rw [if_neg htgt] at h
      by_cases hstk : INSTRUCTION_POINTER (oc.ipSeq n) = INSTRUCTION_POINTER cur
      · rw [if_pos hstk] at h
        obtain ⟨r', hr', hrr⟩ := Option.map_eq_some'.mp h
        obtain ⟨h1, h2⟩ := ih _ _ _ _ hr'
        subst hrr
        exact ⟨h1, h2⟩
      · rw [if_neg hstk] at h
        obtain ⟨r', hr', hrr⟩ := Option.map_eq_some'.mp h
        obtain ⟨h1, h2⟩ := ih _ _ _ _ hr'
        subst hrr
        exact ⟨h1, h2⟩

theorem stepLoop_bounded (oc : StepOracle) (tid : Int) (addr : Nat)
    (maxSteps : Int) (h0 : 0 ≤ maxSteps) (hss : ∀ k, oc.ssFail k = false) :
    ∀ fuel n count cur r, count ≤ maxSteps →
      stepLoop oc tid addr maxSteps n count cur fuel = some r →
      r.ret = 0 ∧ r.count ≤ maxSteps := by
  intro fuel
  induction fuel with
  | zero => intro n count cur r _ h; cases h
  | succ fuel ih =>
    intro n count cur r hcnt h
    by_cases hg : maxSteps = -1 ∨ count < maxSteps
    · rw [stepLoop, if_pos hg] at h
      rw [if_neg (by simp [hss n])] at h
      have hlt : count < maxSteps := by
        rcases hg with hg | hg
        · omega
        · exact hg
      by_cases htgt : INSTRUCTION_POINTER (oc.ipSeq n) = addr
      · rw [if_pos htgt] at h
        cases h
        exact ⟨rfl, hcnt⟩
      · rw [if_neg htgt] at h
        by_cases hstk : INSTRUCTION_POINTER (oc.ipSeq n) = INSTRUCTION_POINTER cur
        · rw [if_pos hstk] at h
          obtain ⟨r', hr', hrr⟩ := Option.map_eq_some'.mp h
          obtain ⟨h1, h2⟩ := ih _ _ _ _ hcnt hr'
          subst hrr
          exact ⟨h1, h2⟩
        · rw [if_neg hstk] at h
          obtain ⟨r', hr', hrr⟩ := Option.map_eq_some'.mp h
          obtain ⟨h1, h2⟩ := ih _ _ _ _ (by omega) hr'
          subst hrr
          exact ⟨h1, h2⟩
    · rw [stepLoop_exhaust _ _ _ _ _ _ _ _ hg] at h
      cases h
      exact ⟨rfl, hcnt⟩

theorem steppingThread_setLastRegs (tid : Int) (r : Regs)
    (threads : List Thread) (st : Thread)
    (h : steppingThread tid threads = some st) :
    steppingThread tid (setLastRegs tid r threads) =
      some { st with regs := r } := by
  rw [steppingThread, setLastRegs, List.reverse_reverse]
  rw [steppingThread] at h
  generalize threads.reverse = l at h ⊢
  induction l with
  | nil => cases h
  | cons t ts ih =>
    by_cases htid : t.tid = tid
    · rw [List.find?_cons_of_pos _ (by simp [htid])] at h
      cases h
      rw [setLastRegs.go, if_pos htid]
      exact List.find?_cons_of_pos _ (by simp [htid])
    · rw [List.find?_cons_of_neg _ (by simp [htid])] at h
      rw [setLastRegs.go, if_neg htid]
      rw [List.find?_cons_of_neg _ (by simp [htid])]
      exact ih h

/-! ## C6: per-iteration behavior of the `step_until` loop -/

/-- C6: one iteration of the `step_until` loop, when the guard holds and
the single step succeeds. (1) If the IP read back after the step equals the
target address, the loop exits with success at once — this test comes first,
so it takes precedence over the stuck test even when the IP also equals the
previous IP. (2) If the new IP equals the cached pre-step IP, the loop
continues with the SAME counter. (3) Otherwise the counter grows by exactly
one. -/
theorem C6_step_until_iteration (oc : StepOracle) (tid : Int) (addr : Nat)
    (maxSteps : Int) (n : Nat) (count : Int) (cur : Regs) (fuel : Nat)
    (hguard : maxSteps = -1 ∨ count < maxSteps)
    (hss : oc.ssFail n = false) :
    (INSTRUCTION_POINTER (oc.ipSeq n) = addr →
      stepLoop oc tid addr maxSteps n count cur (fuel + 1) =
        some ⟨0, oc.ipSeq n, n + 1, count,
          [Event.singleStep tid, Event.waitFor tid, Event.getRegs tid]⟩) ∧
    (INSTRUCTION_POINTER (oc.ipSeq n) ≠ addr →
      INSTRUCTION_POINTER (oc.ipSeq n) = INSTRUCTION_POINTER cur →
      stepLoop oc tid addr maxSteps n count cur (fuel + 1) =
        (stepLoop oc tid addr maxSteps (n + 1) count (oc.ipSeq n) fuel).map
          (fun r => { r with events := [Event.singleStep tid,
            Event.waitFor tid, Event.getRegs tid] ++ r.events })) ∧
    (INSTRUCTION_POINTER (oc.ipSeq n) ≠ addr →
      INSTRUCTION_POINTER (oc.ipSeq n) ≠ INSTRUCTION_POINTER cur →
      stepLoop oc tid addr maxSteps n count cur (fuel + 1) =
        (stepLoop oc tid addr maxSteps (n + 1) (count + 1)
            (oc.ipSeq n) fuel).map
          (fun r => { r with events := [Event.singleStep tid,
            Event.waitFor tid, Event.getRegs tid] ++ r.events })) := by
  refine ⟨?_, ?_, ?_⟩
  · intro htgt
    rw [stepLoop, if_pos hguard, if_neg (by simp [hss]), if_pos htgt]
  · intro htgt hstk
    rw [stepLoop, if_pos hguard, if_neg (by simp [hss]), if_neg htgt,
      if_pos hstk]
  · intro htgt hstk
    rw [stepLoop, if_pos hguard, if_neg (by simp [hss]), if_neg htgt,
      if_neg hstk]

/-- Concrete instance of C6: with a thread stuck at IP 5 and target 9, one
iteration re-enters the loop with the counter still 0 (the stuck branch). -/
theorem C6_witness :
    stepLoop ⟨fun _ => false, fun _ => ⟨5, 0⟩⟩ 1 9 3 0 0 ⟨5, 0⟩ (3 + 1) =
      (stepLoop ⟨fun _ => false, fun _ => ⟨5, 0⟩⟩ 1 9 3 (0 + 1) 0 ⟨5, 0⟩ 3).map
        (fun r => { r with events := [Event.singleStep 1, Event.waitFor 1,
          Event.getRegs 1] ++ r.events }) :=
  (C6_step_until_iteration ⟨fun _ => false, fun _ => ⟨5, 0⟩⟩ 1 9 3 0 0 ⟨5, 0⟩ 3
    (Or.inr (by decide)) rfl).2.1 (by decide) rfl

/-! ## C3: iteration bounds of `step_until` -/

/-- C3 counterexample: the loop guard is `max_steps == -1 || count <
max_steps`, not `max_steps < 0`. With `max_steps = -2` and a thread whose
IP would reach the target address 3 after three steps (the `-1` run below
shows it does), `step_until` issues ZERO single steps and still returns
success with the target unreached — refuting "for every max_steps < 0 the
loop iterates without bound until the target address is reached". -/
theorem C3_counterexample :
    (step_until ⟨fun _ => false, fun k => ⟨k + 1, 0⟩⟩ [⟨1, ⟨0, 0⟩⟩] []
        (fun _ => ⟨0, 0⟩) 1 3 (-2) 10).map
      (fun r => (r.ret, r.nSteps, r.count)) = some (0, 0, 0) ∧
    (step_until ⟨fun _ => false, fun k => ⟨k + 1, 0⟩⟩ [⟨1, ⟨0, 0⟩⟩] []
        (fun _ => ⟨0, 0⟩) 1 3 (-1) 10).map
      (fun r => (r.ret, r.nSteps, r.count)) = some (0, 3, 2) := by
  constructor <;> rfl

/-- C3 amended: only `max_steps = -1` selects the unbounded mode, in which
the loop (absent single-step failures) can exit only by reaching the target
address; every other negative `max_steps` makes the loop guard false at
once, so zero single steps are issued and success is returned immediately;
for `max_steps ≥ 0` at most `max_steps` counted steps are performed, and
success is returned even when `max_steps` is exhausted without the IP
reaching `addr`. -/
theorem C3_step_until_iteration_bounds (oc : StepOracle)
    (threads : List Thread) (bps : List SWBreakpoint) (kern : KernRegs)
    (tid : Int) (addr : Nat) (maxSteps : Int) (fuel : Nat) (st : Thread)
    (hst : steppingThread tid threads = some st)
    (hss : ∀ k, oc.ssFail k = false) :
    (maxSteps = -1 → ∀ res,
      step_until oc threads bps kern tid addr maxSteps fuel = some res →
      res.ret = 0 ∧ ∃ st', steppingThread tid res.threads = some st' ∧
        INSTRUCTION_POINTER st'.regs = addr) ∧
    (maxSteps < -1 → ∃ res,
      step_until oc threads bps kern tid addr maxSteps (fuel + 1) =
        some res ∧
      res.ret = 0 ∧ res.nSteps = 0 ∧ res.count = 0 ∧
      res.events = threads.map (fun t => Event.setRegs t.tid)) ∧
    (0 ≤ maxSteps → ∀ res,
      step_until oc threads bps kern tid addr maxSteps fuel = some res →
      res.ret = 0 ∧ res.count ≤ maxSteps) := by
  refine ⟨?_, ?_, ?_⟩
  · intro hm res hres
    subst hm
    rw [step_until] at hres
    simp only [hst] at hres
    obtain ⟨r, hr, hrr⟩ := Option.map_eq_some'.mp hres
    obtain ⟨h1, h2⟩ := stepLoop_unbounded oc tid addr hss fuel 0 0 st.regs r hr
    subst hrr
    exact ⟨h1, _, steppingThread_setLastRegs tid r.regs threads st hst, h2⟩
  · intro hm
    have hng : ¬(maxSteps = -1 ∨ (0 : Int) < maxSteps) := by omega
    have heq : step_until oc threads bps kern tid addr maxSteps (fuel + 1) =
        some ⟨0, setLastRegs tid st.regs threads, bps, flushRegs kern threads,
          (threads.map (fun t => Event.setRegs t.tid)) ++ [], 0, 0⟩ := by
      rw [step_until]
      simp only [hst]
      rw [stepLoop_exhaust oc tid addr maxSteps 0 0 st.regs fuel hng]
      rfl
    exact ⟨_, heq, rfl, rfl, rfl, by simp⟩
  · intro hm res hres
    rw [step_until] at hres
    simp only [hst] at hres
    obtain ⟨r, hr, hrr⟩ := Option.map_eq_some'.mp hres
    obtain ⟨h1, h2⟩ := stepLoop_bounded oc tid addr maxSteps hm hss fuel
      0 0 st.regs r hm hr
    subst hrr
    exact ⟨h1, h2⟩

/-- Concrete instance of C3 (amended): with `max_steps = 2` and a thread
whose IP never reaches target 9, the run succeeds with a final counter of
at most 2. -/
theorem C3_witness :
    ∃ res, step_until ⟨fun _ => false, fun k => ⟨k + 1, 0⟩⟩ [⟨1, ⟨0, 0⟩⟩] []
        (fun _ => ⟨0, 0⟩) 1 9 2 10 = some res ∧
      res.ret = 0 ∧ res.count ≤ 2 := by
  obtain ⟨res, hres⟩ : ∃ res, step_until ⟨fun _ => false, fun k => ⟨k + 1, 0⟩⟩
      [⟨1, ⟨0, 0⟩⟩] [] (fun _ => ⟨0, 0⟩) 1 9 2 10 = some res := ⟨_, rfl⟩
  obtain ⟨h1, h2⟩ := (C3_step_until_iteration_bounds
    ⟨fun _ => false, fun k => ⟨k + 1, 0⟩⟩ [⟨1, ⟨0, 0⟩⟩] [] (fun _ => ⟨0, 0⟩)
    1 9 2 10 ⟨1, ⟨0, 0⟩⟩ rfl (fun _ => rfl)).2.2 (by decide) res hres
  exact ⟨res, hres, h1, h2⟩

/-! ## Lemmas about the breakpoint table -/

/-- Number of records for address `a` in the table. -/
def countAddr (a : Nat) (bps : List SWBreakpoint) : Nat :=
  bps.countP (fun b => b.addr = a)

theorem markEnabled_eq_none (a : Nat) :
    ∀ bps : List SWBreakpoint, (∀ b ∈ bps, b.addr ≠ a) →
      markEnabled a bps = none := by
  intro bps h
  induction bps with
  | nil => rfl
  | cons c rest ih =>
    rw [markEnabled, if_neg (h c (List.mem_cons_self _ _)),
      ih (fun b hb => h b (List.mem_cons_of_mem _ hb))]
    rfl

theorem markEnabled_eq_some (a : Nat) :
    ∀ (bps : List SWBreakpoint), (∃ b ∈ bps, b.addr = a) →
      ∃ l₁ b l₂, bps = l₁ ++ b :: l₂ ∧ (∀ c ∈ l₁, c.addr ≠ a) ∧ b.addr = a ∧
        markEnabled a bps = some (l₁ ++ { b with enabled := true } :: l₂) := by
  intro bps hex
  induction bps with
  | nil => obtain ⟨b, hb, _⟩ := hex; cases hb
  | cons c rest ih =>
    by_cases hc : c.addr = a
    · exact ⟨[], c, rest, rfl, by simp, hc, by rw [markEnabled, if_pos hc]; rfl⟩
    · have hex' : ∃ b ∈ rest, b.addr = a := by
        obtain ⟨b, hb, hba⟩ := hex
        rcases List.mem_cons.mp hb with h | h
        · exact absurd (h ▸ hba) hc
        · exact ⟨b, h, hba⟩
      obtain ⟨l₁, b, l₂, he, hl₁, hba, hm⟩ := ih hex'
      refine ⟨c :: l₁, b, l₂, by simp [he], ?_, hba,
        by rw [markEnabled, if_neg hc, hm]; rfl⟩
      intro d hd
      rcases List.mem_cons.mp hd with h | h
      · exact h ▸ hc
      · exact hl₁ d h

theorem register_breakpoint_fresh (f : Nat → Nat) (bps : List SWBreakpoint)
    (mem : Mem) (a : Nat) (h : ∀ b ∈ bps, b.addr ≠ a) :
    register_breakpoint f bps mem a =
      (⟨a, mem a, f (mem a), true⟩ :: bps, memUpd mem a (f (mem a))) := by
  rw [register_breakpoint, markEnabled_eq_none a bps h]

theorem disable_no_record (a : Nat) :
    ∀ (bps : List SWBreakpoint) (mem : Mem), (∀ b ∈ bps, b.addr ≠ a) →
      disable_breakpoint bps mem a = (bps, mem) := by
  intro bps
  induction bps with
  | nil => intro mem _; rfl
  | cons c rest ih =>
    intro mem h
    rw [disable_breakpoint]
    rw [if_neg (h c (List.mem_cons_self _ _)),
      ih mem (fun b hb => h b (List.mem_cons_of_mem _ hb))]

/-- `disable_breakpoint` neither creates nor destroys records for `a`, and
every record for `a` afterwards carries the stored words of a record for
`a` before. -/
theorem disable_shape (a : Nat) :
    ∀ (bps : List SWBreakpoint) (mem : Mem),
      countAddr a (disable_breakpoint bps mem a).1 = countAddr a bps ∧
      ∀ b' ∈ (disable_breakpoint bps mem a).1, b'.addr = a →
        ∃ b ∈ bps, b.addr = a ∧ b'.instruction = b.instruction ∧
          b'.patched_instruction = b.patched_instruction := by
  intro bps
  induction bps with
  | nil => intro mem; exact ⟨rfl, by intro b' hb'; cases hb'⟩
  | cons c rest ih =>
    intro mem
    by_cases hc : c.addr = a
    · refine ⟨by simp [disable_breakpoint, hc, countAddr], ?_⟩
      intro b' hb' hb'a
      rw [disable_breakpoint, if_pos hc] at hb'
      rcases List.mem_cons.mp hb' with h | h
      · exact ⟨c, List.mem_cons_self _ _, hc, by rw [h], by rw [h]⟩
      · exact ⟨b', List.mem_cons_of_mem _ h, hb'a, rfl, rfl⟩
    · obtain ⟨ih1, ih2⟩ := ih mem
      refine ⟨by simp [disable_breakpoint, hc, countAddr] at ih1 ⊢; omega, ?_⟩
      intro b' hb' hb'a
      rw [disable_breakpoint, if_neg hc] at hb'
      rcases List.mem_cons.mp hb' with h | h
      · exact absurd (h ▸ hb'a) hc
      · obtain ⟨b, hb, hrest⟩ := ih2 b' h hb'a
        exact ⟨b, List.mem_cons_of_mem _ hb, hrest⟩

/-- A repeat `register_breakpoint` at an address that already has exactly
one record keeps exactly one record, only flips `enabled` to true, and
never changes the stored words. -/
theorem register_existing_shape (f : Nat → Nat) (a : Nat)
    (bps : List SWBreakpoint) (mem : Mem) (h1 : countAddr a bps = 1) :
    countAddr a (register_breakpoint f bps mem a).1 = 1 ∧
    ∀ b' ∈ (register_breakpoint f bps mem a).1, b'.addr = a →
      b'.enabled = true ∧ ∃ b ∈ bps, b.addr = a ∧
        b'.instruction = b.instruction ∧
        b'.patched_instruction = b.patched_instruction := by
  have hex : ∃ b ∈ bps, b.addr = a := by
    have : 0 < bps.countP (fun b => b.addr = a) := by
      rw [show bps.countP (fun b => b.addr = a) = countAddr a bps from rfl, h1]
      omega
    obtain ⟨b, hb, hba⟩ := List.countP_pos_iff.mp this
    exact ⟨b, hb, by simpa using hba⟩
  obtain ⟨l₁, b, l₂, he, hl₁, hba, hm⟩ := markEnabled_eq_some a bps hex
  have hreg : (register_breakpoint f bps mem a).1 =
      l₁ ++ { b with enabled := true } :: l₂ := by
    rw [register_breakpoint, hm]
  have hcnt : l₁.countP (fun b => b.addr = a) +
      (l₂.countP (fun b => b.addr = a) + 1) = 1 := by
    have h := h1
    rw [he, countAddr, List.countP_append, List.countP_cons] at h
    simpa [hba] using h
  have hl₂ : ∀ c ∈ l₂, c.addr ≠ a := by
    intro c hc hca
    have h0 : l₂.countP (fun b => b.addr = a) = 0 := by omega
    have := List.countP_eq_zero.mp h0 c hc
    simp [hca] at this
  constructor
  · rw [hreg, countAddr, List.countP_append, List.countP_cons]
    simp only [hba]
    simpa [hba] using hcnt
  · intro b' hb' hb'a
    rw [hreg] at hb'
    rcases List.mem_append.mp hb' with h | h
    · exact absurd hb'a (hl₁ b' h)
    · rcases List.mem_cons.mp h with h | h
      · subst h
        refine ⟨rfl, b, ?_, hba, rfl, rfl⟩
        rw [he]
        exact List.mem_append_right _ (List.mem_cons_self _ _)
      · exact absurd hb'a (hl₂ b' h)

/-- Running further install/disable calls at `a` from a state with exactly
one record for `a` preserves the record count and the stored words. -/
theorem runBpOps_good (f : Nat → Nat) (a : Nat) (w₀ : Nat) :
    ∀ (ops : List BpOp) (bps : List SWBreakpoint) (mem : Mem),
      countAddr a bps = 1 →
      (∀ b ∈ bps, b.addr = a →
        b.instruction = w₀ ∧ b.patched_instruction = f w₀) →
      countAddr a (runBpOps f a ops (bps, mem)).1 = 1 ∧
      ∀ b ∈ (runBpOps f a ops (bps, mem)).1, b.addr = a →
        b.instruction = w₀ ∧ b.patched_instruction = f w₀ := by
  intro ops
  induction ops with
  | nil => intro bps mem h1 h2; exact ⟨h1, h2⟩
  | cons op rest ih =>
    intro bps mem h1 h2
    cases op with
    | install =>
      obtain ⟨g1, g2⟩ := register_existing_shape f a bps mem h1
      rw [runBpOps]
      refine ih _ _ g1 ?_
      intro b hb hba
      obtain ⟨_, b₀, hb₀, _, hi, hp⟩ := g2 b hb hba
      obtain ⟨w1, w2⟩ := h2 b₀ hb₀ (by assumption)
      exact ⟨hi ▸ w1, hp ▸ w2⟩
    | disable =>
      obtain ⟨g1, g2⟩ := disable_shape a bps mem
      rw [runBpOps]
      refine ih _ _ (g1.trans h1) ?_
      intro b hb hba
      obtain ⟨b₀, hb₀, hb₀a, hi, hp⟩ := g2 b hb hba
      obtain ⟨w1, w2⟩ := h2 b₀ hb₀ hb₀a
      exact ⟨hi ▸ w1, hp ▸ w2⟩

/-- Running install/disable calls at `a` from a state with no record for
`a`: as soon as one install occurs, the state has exactly one record for
`a` whose stored words come from the memory word seen before that first
install. -/
theorem runBpOps_pre (f : Nat → Nat) (a : Nat) :
    ∀ (ops : List BpOp) (bps : List SWBreakpoint) (mem : Mem),
      (∀ b ∈ bps, b.addr ≠ a) → BpOp.install ∈ ops →
      countAddr a (runBpOps f a ops (bps, mem)).1 = 1 ∧
      ∀ b ∈ (runBpOps f a ops (bps, mem)).1, b.addr = a →
        b.instruction = mem a ∧ b.patched_instruction = f (mem a) := by
  intro ops
  induction ops with
  | nil => intro bps mem _ hin; cases hin
  | cons op rest ih =>
    intro bps mem h0 hin
    cases op with
    | install =>
      have hstep : runBpOps f a (BpOp.install :: rest) (bps, mem) =
          runBpOps f a rest (register_breakpoint f bps mem a) := rfl
      rw [hstep, register_breakpoint_fresh f bps mem a h0]
      have hcount : countAddr a (⟨a, mem a, f (mem a), true⟩ :: bps) = 1 := by
        rw [countAddr, List.countP_cons]
        have : bps.countP (fun b => b.addr = a) = 0 :=
          List.countP_eq_zero.mpr (fun b hb => by simp [h0 b hb])
        simp [this]
      have hwords : ∀ b ∈ (⟨a, mem a, f (mem a), true⟩ :: bps),
          b.addr = a → b.instruction = mem a ∧
            b.patched_instruction = f (mem a) := by
        intro b hb hba
        rcases List.mem_cons.mp hb with h | h
        · subst h; exact ⟨rfl, rfl⟩
        · exact absurd hba (h0 b h)
      exact runBpOps_good f a (mem a) rest _ _ hcount hwords
    | disable =>
      have hstep : runBpOps f a (BpOp.disable :: rest) (bps, mem) =
          runBpOps f a rest (disable_breakpoint bps mem a) := rfl
      rw [hstep, disable_no_record a bps mem h0]
      have hin' : BpOp.install ∈ rest := by
        rcases List.mem_cons.mp hin with h | h
        · simp at h
        · exact h
      exact ih bps mem h0 hin'

/-! ## C1: install / disable / install sequences -/

/-- C1: for any sequence of `register_breakpoint` / `disable_breakpoint`
calls at address `a`, starting from a table with no record for `a` and
containing at least one install, the final table holds exactly one record
for `a`, whose `original_word` is the tracee-memory word before the first
install and whose `patched_word` is `install_trap` of it. Moreover a
repeat install on an existing record only sets `enabled = true` and never
changes the stored words. -/
theorem C1_original_and_patched_words_stable (f : Nat → Nat) (a : Nat)
    (ops : List BpOp) (bps₀ : List SWBreakpoint) (mem₀ : Mem)
    (h0 : ∀ b ∈ bps₀, b.addr ≠ a) (hin : BpOp.install ∈ ops) :
    countAddr a (runBpOps f a ops (bps₀, mem₀)).1 = 1 ∧
    (∀ b ∈ (runBpOps f a ops (bps₀, mem₀)).1, b.addr = a →
      b.instruction = mem₀ a ∧ b.patched_instruction = f (mem₀ a)) ∧
    (∀ (bps : List SWBreakpoint) (mem : Mem), countAddr a bps = 1 →
      countAddr a (register_breakpoint f bps mem a).1 = 1 ∧
      ∀ b' ∈ (register_breakpoint f bps mem a).1, b'.addr = a →
        b'.enabled = true ∧ ∃ b ∈ bps, b.addr = a ∧
          b'.instruction = b.instruction ∧
          b'.patched_instruction = b.patched_instruction) := by
  obtain ⟨h1, h2⟩ := runBpOps_pre f a ops bps₀ mem₀ h0 hin
  exact ⟨h1, h2, fun bps mem h => register_existing_shape f a bps mem h⟩

/-- Concrete instance of C1: install–disable–install at address 16 with
initial memory word 100 and `install_trap = (· + 200)` leaves exactly one
record, whose stored words are 100 and 300 — even though the second
install re-read a memory word (300) different from the original. -/
theorem C1_witness :
    countAddr 16 (runBpOps (fun w => w + 200) 16
      [BpOp.install, BpOp.disable, BpOp.install] ([], fun _ => 100)).1 = 1 ∧
    SWBreakpoint.instruction ⟨16, 100, 300, true⟩ = 100 ∧
    SWBreakpoint.patched_instruction ⟨16, 100, 300, true⟩ = 300 := by
  have h := C1_original_and_patched_words_stable (fun w => w + 200) 16
    [BpOp.install, BpOp.disable, BpOp.install] [] (fun _ => 100)
    (by simp) (by decide)
  exact ⟨h.1, (h.2.1 ⟨16, 100, 300, true⟩ (by decide) rfl).1 ▸ rfl, rfl⟩

/-! ## C7: ordering of the returned status list -/

/-- The SIGSTOP-probe statuses in traversal order: one entry per thread
whose tid differs from the current list head's tid (`cur`, initially the
primary tid, then the tid of the last collected stop status) and whose
probe `GETREGS` fails. (Characterizes the prepending loop of
`wait_all_and_update_regs`.) -/
def stopEvents (oc : WaitOracle) : List Thread → Int → List ThreadStatus
  | [], _ => []
  | t :: ts, cur =>
    if t.tid = cur then stopEvents oc ts cur
    else if oc.probeFails t.tid then
      ⟨oc.stopTid t.tid, oc.stopStatus t.tid⟩ ::
        stopEvents oc ts (oc.stopTid t.tid)
    else stopEvents oc ts cur

/-- The drained statuses in poll order: the longest prefix of the drain
oracle with positive tids. -/
def drainedEvents : List (Int × Int) → List ThreadStatus
  | [] => []
  | (tid, st) :: rest =>
    if 0 < tid then ⟨tid, st⟩ :: drainedEvents rest else []

theorem probePass_statuses (oc : WaitOracle) :
    ∀ (ts : List Thread) (hd : ThreadStatus) (tl : List ThreadStatus),
      (probePass oc ts hd tl).1.1 :: (probePass oc ts hd tl).1.2 =
        (stopEvents oc ts hd.tid).reverse ++ (hd :: tl) := by
  intro ts
  induction ts with
  | nil => intro hd tl; simp [probePass, stopEvents]
  | cons t rest ih =>
    intro hd tl
    by_cases hp : t.tid = hd.tid
    · simp [probePass, stopEvents, hp, ih]
    · by_cases hf : oc.probeFails t.tid
      · have := ih ⟨oc.stopTid t.tid, oc.stopStatus t.tid⟩ (hd :: tl)
        simp only [probePass, stopEvents, hp, hf, if_neg, if_pos,
          if_true, if_false] at this ⊢
        simp [hp, hf, this]
      · simp [probePass, stopEvents, hp, hf, ih]

theorem drainPass_statuses :
    ∀ (l : List (Int × Int)) (hd : ThreadStatus) (tl : List ThreadStatus),
      (drainPass l hd tl).1.1 :: (drainPass l hd tl).1.2 =
        (drainedEvents l).reverse ++ (hd :: tl) := by
  intro l
  induction l with
  | nil => intro hd tl; simp [drainPass, drainedEvents]
  | cons p rest ih =>
    intro hd tl
    obtain ⟨tid, st⟩ := p
    by_cases hpos : 0 < tid
    · have := ih ⟨tid, st⟩ (hd :: tl)
      simp only [drainPass, drainedEvents, hpos, if_pos] at this ⊢
      simp [hpos, this]
    · simp [drainPass, drainedEvents, hpos]

/-- C7: the list returned by `wait_all_and_update_regs` is newest-first:
the drained events come first (reversed), then the SIGSTOP-probe events
(reversed), and the primary event from the first blocking `waitpid` is the
last element. -/
theorem C7_status_list_newest_first (oc : WaitOracle) (threads : List Thread)
    (bps : List SWBreakpoint) (mem : Mem) (h : oc.primaryTid ≠ -1) :
    (wait_all_and_update_regs oc threads bps mem).1 =
      some ((drainedEvents oc.drainList).reverse ++
        ((stopEvents oc threads oc.primaryTid).reverse ++
          [⟨oc.primaryTid, oc.primaryStatus⟩])) := by
  rw [wait_all_and_update_regs, if_neg h]
  simp only
  rw [drainPass_statuses, probePass_statuses]

/-- Concrete instance of C7: primary tid 5, running threads 6 and 7
(probe fails, so each is SIGSTOPed), and one drained event for tid 8. -/
theorem C7_witness :
    (wait_all_and_update_regs
      ⟨5, 11, fun _ => true, fun _ => ⟨0, 0⟩, fun t => t, fun _ => 22,
       [(8, 33), (0, 0)], fun _ => false⟩
      [⟨5, ⟨0, 0⟩⟩, ⟨6, ⟨0, 0⟩⟩, ⟨7, ⟨0, 0⟩⟩] [] (fun _ => 0)).1 =
      some [⟨8, 33⟩, ⟨7, 22⟩, ⟨6, 22⟩, ⟨5, 11⟩] := by
  have h := C7_status_list_newest_first
    ⟨5, 11, fun _ => true, fun _ => ⟨0, 0⟩, fun t => t, fun _ => 22,
     [(8, 33), (0, 0)], fun _ => false⟩
    [⟨5, ⟨0, 0⟩⟩, ⟨6, ⟨0, 0⟩⟩, ⟨7, ⟨0, 0⟩⟩] [] (fun _ => 0) (by decide)
  rw [h]
  rfl

/-! ## C4: memory state after `wait_all_and_update_regs` -/

theorem disarmBps_not_mem (a : Nat) :
    ∀ (bps : List SWBreakpoint) (mem : Mem),
      a ∉ bps.map SWBreakpoint.addr → (disarmBps mem bps).1 a = mem a := by
  intro bps
  induction bps with
  | nil => intro mem _; rfl
  | cons b bs ih =>
    intro mem ha
    rw [List.map_cons, List.mem_cons] at ha
    push_neg at ha
    by_cases he : b.enabled
    · rw [disarmBps, if_pos he, ih _ ha.2, memUpd_other _ _ _ _ ha.1]
    · rw [disarmBps, if_neg he, ih _ ha.2]

theorem disarmBps_enabled (b : SWBreakpoint) :
    ∀ (bps : List SWBreakpoint) (mem : Mem),
      (bps.map SWBreakpoint.addr).Nodup → b ∈ bps → b.enabled = true →
      (disarmBps mem bps).1 b.addr = b.instruction := by
  intro bps
  induction bps with
  | nil => intro mem _ hb; cases hb
  | cons c bs ih =>
    intro mem hnd hb he
    rw [List.map_cons, List.nodup_cons] at hnd
    rcases List.mem_cons.mp hb with h | h
    · subst h
      rw [disarmBps, if_pos he, disarmBps_not_mem _ _ _ hnd.1, memUpd_same]
    · have hne : b.addr ≠ c.addr := fun hc =>
        hnd.1 (hc ▸ List.mem_map_of_mem SWBreakpoint.addr h)
      by_cases hce : c.enabled
      · rw [disarmBps, if_pos hce]
        exact ih _ hnd.2 h he
      · rw [disarmBps, if_neg hce]
        exact ih _ hnd.2 h he

theorem disarmBps_disabled (b : SWBreakpoint) :
    ∀ (bps : List SWBreakpoint) (mem : Mem),
      (bps.map SWBreakpoint.addr).Nodup → b ∈ bps → b.enabled = false →
      (disarmBps mem bps).1 b.addr = mem b.addr := by
  intro bps
  induction bps with
  | nil => intro mem _ hb; cases hb
  | cons c bs ih =>
    intro mem hnd hb he
    rw [List.map_cons, List.nodup_cons] at hnd
    rcases List.mem_cons.mp hb with h | h
    · subst h
      rw [disarmBps, if_neg (by simp [he])]
      exact disarmBps_not_mem _ _ _ hnd.1
    · have hne : b.addr ≠ c.addr := fun hc =>
        hnd.1 (hc ▸ List.mem_map_of_mem SWBreakpoint.addr h)
      by_cases hce : c.enabled
      · rw [disarmBps, if_pos hce, ih _ hnd.2 h he,
          memUpd_other _ _ _ _ hne]
      · rw [disarmBps, if_neg hce]
        exact ih _ hnd.2 h he

theorem disarmBps_events :
    ∀ (bps : List SWBreakpoint) (mem : Mem),
      ∀ e ∈ (disarmBps mem bps).2, ∃ b ∈ bps, b.enabled = true ∧
        e = Event.pokeData b.addr b.instruction := by
  intro bps
  induction bps with
  | nil => intro mem e he; cases he
  | cons c bs ih =>
    intro mem e he
    by_cases hce : c.enabled
    · rw [disarmBps, if_pos hce] at he
      rcases List.mem_cons.mp he with h | h
      · exact ⟨c, List.mem_cons_self _ _, hce, h⟩
      · obtain ⟨b, hb, h1, h2⟩ := ih _ e h
        exact ⟨b, List.mem_cons_of_mem _ hb, h1, h2⟩
    · rw [disarmBps, if_neg hce] at he
      obtain ⟨b, hb, h1, h2⟩ := ih _ e he
      exact ⟨b, List.mem_cons_of_mem _ hb, h1, h2⟩

theorem probePass_no_poke (oc : WaitOracle) :
    ∀ (ts : List Thread) (hd : ThreadStatus) (tl : List ThreadStatus),
      ∀ e ∈ (probePass oc ts hd tl).2.2, ∀ a v,
        e ≠ Event.pokeData a v := by
  intro ts
  induction ts with
  | nil => intro hd tl e he; cases he
  | cons t rest ih =>
    intro hd tl e he a v
    by_cases hp : t.tid = hd.tid
    · rw [probePass, if_pos hp] at he
      exact ih _ _ e he a v
    · by_cases hf : oc.probeFails t.tid
      · rw [probePass, if_neg hp, if_pos hf] at he
        rcases List.mem_cons.mp he with h | h
        · exact h ▸ (by simp)
        · rcases List.mem_cons.mp h with h | h
          · exact h ▸ (by simp)
          · rcases List.mem_cons.mp h with h | h
            · exact h ▸ (by simp)
            · exact ih _ _ e h a v
      · rw [probePass, if_neg hp, if_neg hf] at he
        rcases List.mem_cons.mp he with h | h
        · exact h ▸ (by simp)
        · exact ih _ _ e h a v

theorem drainPass_no_poke :
    ∀ (l : List (Int × Int)) (hd : ThreadStatus) (tl : List ThreadStatus),
      ∀ e ∈ (drainPass l hd tl).2, e = Event.waitAny := by
  intro l
  induction l with
  | nil => intro hd tl e he; simpa [drainPass] using he
  | cons p rest ih =>
    intro hd tl e he
    obtain ⟨tid, st⟩ := p
    by_cases hpos : 0 < tid
    · rw [drainPass, if_pos hpos] at he
      rcases List.mem_cons.mp he with h | h
      · exact h
      · exact ih _ _ e h
    · rw [drainPass, if_neg hpos] at he
      simpa using he

theorem finalGetRegs_no_poke (oc : WaitOracle) :
    ∀ (ts : List Thread), ∀ e ∈ (finalGetRegs oc ts).2,
      ∃ x, e = Event.getRegs x := by
  intro ts
  induction ts with
  | nil => intro e he; cases he
  | cons t rest ih =>
    intro e he
    rw [finalGetRegs] at he
    rcases List.mem_cons.mp he with h | h
    · exact ⟨t.tid, h⟩
    · exact ih e h

/-- C4: after a completed `wait_all_and_update_regs` run in the
all-stopped protocol (the primary wait succeeded, record addresses are
distinct, and — the protocol invariant — every disabled record's address
already held its patched word), tracee memory holds the `original_word` at
every enabled record's address and the `patched_word` at every disabled
record's address; and the only `POKEDATA` writes the operation issues are
of `original_word`s of enabled records — disabled records are never
touched. -/
theorem C4_wait_all_restores_originals (oc : WaitOracle)
    (threads : List Thread) (bps : List SWBreakpoint) (mem : Mem)
    (hp : oc.primaryTid ≠ -1)
    (hnd : (bps.map SWBreakpoint.addr).Nodup)
    (hdis : ∀ b ∈ bps, b.enabled = false → mem b.addr = b.patched_instruction) :
    (∀ b ∈ bps, b.enabled = true →
      (wait_all_and_update_regs oc threads bps mem).2.2.1 b.addr =
        b.instruction) ∧
    (∀ b ∈ bps, b.enabled = false →
      (wait_all_and_update_regs oc threads bps mem).2.2.1 b.addr =
        b.patched_instruction) ∧
    (∀ e ∈ (wait_all_and_update_regs oc threads bps mem).2.2.2, ∀ a v,
      e = Event.pokeData a v →
      ∃ b ∈ bps, b.enabled = true ∧ a = b.addr ∧ v = b.instruction) := by
  have hmem : (wait_all_and_update_regs oc threads bps mem).2.2.1 =
      (disarmBps mem bps).1 := by
    rw [wait_all_and_update_regs, if_neg hp]
  have hevs : (wait_all_and_update_regs oc threads bps mem).2.2.2 =
      Event.waitAny ::
        ((probePass oc threads ⟨oc.primaryTid, oc.primaryStatus⟩ []).2.2 ++
          ((drainPass oc.drainList
              (probePass oc threads
                ⟨oc.primaryTid, oc.primaryStatus⟩ []).1.1
              (probePass oc threads
                ⟨oc.primaryTid, oc.primaryStatus⟩ []).1.2).2 ++
            ((finalGetRegs oc
                (probePass oc threads
                  ⟨oc.primaryTid, oc.primaryStatus⟩ []).2.1).2 ++
              (disarmBps mem bps).2))) := by
    rw [wait_all_and_update_regs, if_neg hp]
    simp [List.append_assoc]
  refine ⟨?_, ?_, ?_⟩
  · intro b hb he
    rw [hmem]
    exact disarmBps_enabled b bps mem hnd hb he
  · intro b hb he
    rw [hmem, disarmBps_disabled b bps mem hnd hb he]
    exact hdis b hb he
  · intro e he a v hev
    rw [hevs] at he
    rcases List.mem_cons.mp he with h | h
    · exact absurd hev (h ▸ (by simp))
    rcases List.mem_append.mp h with h | h
    · exact absurd hev (probePass_no_poke oc threads _ _ e h a v)
    rcases List.mem_append.mp h with h | h
    · exact absurd hev (by rw [drainPass_no_poke _ _ _ e h] at hev ⊢; simp)
    rcases List.mem_append.mp h with h | h
    · obtain ⟨x, hx⟩ := finalGetRegs_no_poke oc _ e h
      exact absurd hev (hx ▸ (by simp))
    · obtain ⟨b, hb, h1, h2⟩ := disarmBps_events bps mem e h
      rw [hev] at h2
      exact ⟨b, hb, h1, by injection h2 with ha hv; exact ⟨ha, hv⟩⟩

/-- Concrete instance of C4: one enabled record (16, words 5/7) whose
address holds the trap word, one disabled record (32, words 8/9) whose
address holds its patched word. After the wait, address 16 holds 5 and
address 32 still holds 9. -/
theorem C4_witness :
    (wait_all_and_update_regs
      ⟨5, 11, fun _ => false, fun _ => ⟨0, 0⟩, fun t => t, fun _ => 0, [],
       fun _ => false⟩
      [⟨5, ⟨0, 0⟩⟩] [⟨16, 5, 7, true⟩, ⟨32, 8, 9, false⟩]
      (fun a => if a = 16 then 7 else if a = 32 then 9 else 0)).2.2.1 16 = 5 ∧
    (wait_all_and_update_regs
      ⟨5, 11, fun _ => false, fun _ => ⟨0, 0⟩, fun t => t, fun _ => 0, [],
       fun _ => false⟩
      [⟨5, ⟨0, 0⟩⟩] [⟨16, 5, 7, true⟩, ⟨32, 8, 9, false⟩]
      (fun a => if a = 16 then 7 else if a = 32 then 9 else 0)).2.2.1 32 = 9 := by
  have h := C4_wait_all_restores_originals
    ⟨5, 11, fun _ => false, fun _ => ⟨0, 0⟩, fun t => t, fun _ => 0, [],
     fun _ => false⟩
    [⟨5, ⟨0, 0⟩⟩] [⟨16, 5, 7, true⟩, ⟨32, 8, 9, false⟩]
    (fun a => if a = 16 then 7 else if a = 32 then 9 else 0)
    (by decide) (by decide) (by decide)
  exact ⟨h.1 ⟨16, 5, 7, true⟩ (by decide) rfl,
    h.2.1 ⟨32, 8, 9, false⟩ (by decide) rfl⟩

/-! ## C2: step-off ordering in `cont_all_and_set_bps` -/

/-- Number of `SingleStep(x)` events in a trace. -/
def countSS (x : Int) (evs : List Event) : Nat :=
  evs.countP (fun e => e = Event.singleStep x)

theorem stepOff_noabort (oc : ContOracle) (bps : List SWBreakpoint) :
    ∀ (ts : List Thread) (s : Int),
      (∀ u ∈ ts, hitBp bps (INSTRUCTION_POINTER u.regs) = true →
        oc.ssFail u.tid = false) →
      (stepOff oc bps ts s).1 = false := by
  intro ts
  induction ts with
  | nil => intro s _; rfl
  | cons t rest ih =>
    intro s hnf
    have hrest : ∀ u ∈ rest, hitBp bps (INSTRUCTION_POINTER u.regs) = true →
        oc.ssFail u.tid = false :=
      fun u hu => hnf u (List.mem_cons_of_mem _ hu)
    by_cases hhit : hitBp bps (INSTRUCTION_POINTER t.regs)
    · have hsf : oc.ssFail t.tid = false := hnf t (List.mem_cons_self _ _) hhit
      by_cases h4991 : oc.status1 t.tid = 4991
      · rw [stepOff, if_pos hhit, if_neg (by simp [hsf]), if_pos h4991]
        exact ih _ hrest
      · rw [stepOff, if_pos hhit, if_neg (by simp [hsf]), if_neg h4991]
        exact ih _ hrest
    · rw [stepOff, if_neg hhit]
      exact ih _ hrest

theorem stepOff_event_kinds (oc : ContOracle) (bps : List SWBreakpoint) :
    ∀ (ts : List Thread) (s : Int),
      ∀ e ∈ (stepOff oc bps ts s).2.2,
        ∃ x, e = Event.singleStep x ∨ e = Event.waitFor x := by
  intro ts
  induction ts with
  | nil => intro s e he; cases he
  | cons t rest ih =>
    intro s e he
    by_cases hhit : hitBp bps (INSTRUCTION_POINTER t.regs)
    · by_cases hsf : oc.ssFail t.tid
      · rw [stepOff, if_pos hhit, if_pos hsf] at he
        rcases List.mem_singleton.mp he with h
        exact ⟨t.tid, Or.inl h⟩
      · by_cases h4991 : oc.status1 t.tid = 4991
        · rw [stepOff, if_pos hhit, if_neg hsf, if_pos h4991] at he
          rcases List.mem_cons.mp he with h | h
          · exact ⟨t.tid, Or.inl h⟩
          rcases List.mem_cons.mp h with h | h
          · exact ⟨t.tid, Or.inr h⟩
          rcases List.mem_cons.mp h with h | h
          · exact ⟨t.tid, Or.inl h⟩
          rcases List.mem_cons.mp h with h | h
          · exact ⟨t.tid, Or.inr h⟩
          · exact ih _ e h
        · rw [stepOff, if_pos hhit, if_neg hsf, if_neg h4991] at he
          rcases List.mem_cons.mp he with h | h
          · exact ⟨t.tid, Or.inl h⟩
          rcases List.mem_cons.mp h with h | h
          · exact ⟨t.tid, Or.inr h⟩
          · exact ih _ e h
    · rw [stepOff, if_neg hhit] at he
      exact ih _ e he

theorem stepOff_countSS_not_mem (oc : ContOracle) (bps : List SWBreakpoint) :
    ∀ (ts : List Thread) (s : Int) (x : Int),
      x ∉ ts.map Thread.tid →
      countSS x (stepOff oc bps ts s).2.2 = 0 := by
  intro ts
  induction ts with
  | nil => intro s x _; rfl
  | cons t rest ih =>
    intro s x hx
    rw [List.map_cons, List.mem_cons] at hx
    push_neg at hx
    have hne : t.tid ≠ x := fun h => hx.1 h.symm
    by_cases hhit : hitBp bps (INSTRUCTION_POINTER t.regs)
    · by_cases hsf : oc.ssFail t.tid
      · rw [stepOff, if_pos hhit, if_pos hsf]
        simp [countSS, hne]
      · by_cases h4991 : oc.status1 t.tid = 4991
        · rw [stepOff, if_pos hhit, if_neg hsf, if_pos h4991]
          have := ih (oc.status2 t.tid) x hx.2
          simp only [countSS, List.countP_append, List.countP_cons] at this ⊢
          simp [this, hne]
        · rw [stepOff, if_pos hhit, if_neg hsf, if_neg h4991]
          have := ih (oc.status1 t.tid) x hx.2
          simp only [countSS, List.countP_append, List.countP_cons] at this ⊢
          simp [this, hne]
    · rw [stepOff, if_neg hhit]
      exact ih _ x hx.2

/-- Each thread in the list receives exactly one step-off single step when
its cached IP sits on a breakpoint — two when the observed wait status is
4991 — and none otherwise. -/
theorem stepOff_countSS (oc : ContOracle) (bps : List SWBreakpoint) :
    ∀ (ts : List Thread) (s : Int) (t : Thread),
      (ts.map Thread.tid).Nodup →
      (∀ u ∈ ts, hitBp bps (INSTRUCTION_POINTER u.regs) = true →
        oc.ssFail u.tid = false) →
      t ∈ ts →
      countSS t.tid (stepOff oc bps ts s).2.2 =
        if hitBp bps (INSTRUCTION_POINTER t.regs) then
          (if oc.status1 t.tid = 4991 then 2 else 1)
        else 0 := by
  intro ts
  induction ts with
  | nil => intro s t _ _ ht; cases ht
  | cons u rest ih =>
    intro s t hnd hnf ht
    rw [List.map_cons, List.nodup_cons] at hnd
    have hrest : ∀ w ∈ rest, hitBp bps (INSTRUCTION_POINTER w.regs) = true →
        oc.ssFail w.tid = false :=
      fun w hw => hnf w (List.mem_cons_of_mem _ hw)
    rcases List.mem_cons.mp ht with h | h
    · subst h
      by_cases hhit : hitBp bps (INSTRUCTION_POINTER t.regs)
      · have hsf : oc.ssFail t.tid = false := hnf t (List.mem_cons_self _ _) hhit
        have hrest0 : ∀ s', countSS t.tid (stepOff oc bps rest s').2.2 = 0 :=
          fun s' => stepOff_countSS_not_mem oc bps rest s' t.tid hnd.1
        by_cases h4991 : oc.status1 t.tid = 4991
        · rw [stepOff, if_pos hhit, if_neg (by simp [hsf]), if_pos h4991]
          simp only [countSS, List.countP_append, List.countP_cons] at hrest0 ⊢
          simp [hrest0, hhit, h4991]
        · rw [stepOff, if_pos hhit, if_neg (by simp [hsf]), if_neg h4991]
          simp only [countSS, List.countP_append, List.countP_cons] at hrest0 ⊢
          simp [hrest0, hhit, h4991]
      · rw [stepOff, if_neg hhit]
        simp only [if_neg hhit]
        exact stepOff_countSS_not_mem oc bps rest s t.tid hnd.1
    · have hne : u.tid ≠ t.tid := fun hc =>
        hnd.1 (hc ▸ List.mem_map_of_mem Thread.tid h)
      by_cases hhit : hitBp bps (INSTRUCTION_POINTER u.regs)
      · have hsf : oc.ssFail u.tid = false := hnf u (List.mem_cons_self _ _) hhit
        by_cases h4991 : oc.status1 u.tid = 4991
        · rw [stepOff, if_pos hhit, if_neg (by simp [hsf]), if_pos h4991]
          have := ih (oc.status2 u.tid) t hnd.2 hrest h
          simp only [countSS, List.countP_append, List.countP_cons] at this ⊢
          simp [this, hne]
        · rw [stepOff, if_pos hhit, if_neg (by simp [hsf]), if_neg h4991]
          have := ih (oc.status1 u.tid) t hnd.2 hrest h
          simp only [countSS, List.countP_append, List.countP_cons] at this ⊢
          simp [this, hne]
      · rw [stepOff, if_neg hhit]
        exact ih s t hnd.2 hrest h

theorem armBps_events :
    ∀ (bps : List SWBreakpoint) (mem : Mem),
      ∀ e ∈ (armBps mem bps).2, ∃ b ∈ bps, b.enabled = true ∧
        e = Event.pokeData b.addr b.patched_instruction := by
  intro bps
  induction bps with
  | nil => intro mem e he; cases he
  | cons c bs ih =>
    intro mem e he
    by_cases hce : c.enabled
    · rw [armBps, if_pos hce] at he
      rcases List.mem_cons.mp he with h | h
      · exact ⟨c, List.mem_cons_self _ _, hce, h⟩
      · obtain ⟨b, hb, h1, h2⟩ := ih _ e h
        exact ⟨b, List.mem_cons_of_mem _ hb, h1, h2⟩
    · rw [armBps, if_neg hce] at he
      obtain ⟨b, hb, h1, h2⟩ := ih _ e he
      exact ⟨b, List.mem_cons_of_mem _ hb, h1, h2⟩

/-- C2 counterexample: one thread (tid 7) whose cached IP 16 sits on the
breakpoint at 16, with the step-off wait status equal to 4991: the full
observed trace contains TWO `SingleStep(7)` events before the arming
`PokeData(16, 7)` — refuting "exactly one SingleStep(T) is issued before
any arming PokeData". -/
theorem C2_counterexample :
    (cont_all_and_set_bps ⟨fun _ => false, fun _ => 4991, fun _ => 9⟩
      [⟨7, ⟨16, 0⟩⟩] [⟨16, 5, 7, true⟩] (fun _ => ⟨0, 0⟩)
      (fun _ => 0)).2.2.2 =
      [Event.setRegs 7, Event.singleStep 7, Event.waitFor 7,
       Event.singleStep 7, Event.waitFor 7, Event.pokeData 16 7,
       Event.cont 7] ∧
    countSS 7 (cont_all_and_set_bps ⟨fun _ => false, fun _ => 4991,
      fun _ => 9⟩ [⟨7, ⟨16, 0⟩⟩] [⟨16, 5, 7, true⟩] (fun _ => ⟨0, 0⟩)
      (fun _ => 0)).2.2.2 = 2 := by
  constructor <;> rfl

/-- C2 amended: when no step-off single step fails, the trace of
`cont_all_and_set_bps` decomposes as register flush, then the step-off
events (single steps and waits only — no memory write), then the arming
pokes (patched words of enabled records only), then the continues; and a
thread whose cached IP sits on a breakpoint receives exactly one step-off
`SingleStep` when the observed wait status is not 4991, and exactly two
when it is. Hence every step-off single step precedes every arming
`PokeData`, and every arming `PokeData` precedes every `Continue`. -/
theorem C2_step_off_before_arming (oc : ContOracle) (threads : List Thread)
    (bps : List SWBreakpoint) (kern : KernRegs) (mem : Mem)
    (hnd : (threads.map Thread.tid).Nodup)
    (hnf : ∀ u ∈ threads, hitBp bps (INSTRUCTION_POINTER u.regs) = true →
      oc.ssFail u.tid = false) :
    (cont_all_and_set_bps oc threads bps kern mem).2.2.2 =
      threads.map (fun t => Event.setRegs t.tid) ++
        ((stepOff oc bps threads 0).2.2 ++
          ((armBps mem bps).2 ++ threads.map (fun t => Event.cont t.tid))) ∧
    (∀ e ∈ (stepOff oc bps threads 0).2.2,
      ∃ x, e = Event.singleStep x ∨ e = Event.waitFor x) ∧
    (∀ e ∈ (armBps mem bps).2, ∃ b ∈ bps, b.enabled = true ∧
      e = Event.pokeData b.addr b.patched_instruction) ∧
    (∀ t ∈ threads, hitBp bps (INSTRUCTION_POINTER t.regs) = true →
      countSS t.tid (stepOff oc bps threads 0).2.2 =
        if oc.status1 t.tid = 4991 then 2 else 1) := by
  refine ⟨?_, stepOff_event_kinds oc bps threads 0, armBps_events bps mem, ?_⟩
  · rw [cont_all_and_set_bps]
    simp only [stepOff_noabort oc bps threads 0 hnf]
    simp [List.append_assoc]
  · intro t ht hhit
    rw [stepOff_countSS oc bps threads 0 t hnd hnf ht, if_pos hhit]

/-- Concrete instance of C2 (amended): same one-thread scenario with a
non-4991 wait status — the trace is flush, one single step and wait, the
arming poke, then the continue, and the step-off part holds exactly one
`SingleStep(7)`. -/
theorem C2_witness :
    (cont_all_and_set_bps ⟨fun _ => false, fun _ => 0, fun _ => 9⟩
      [⟨7, ⟨16, 0⟩⟩] [⟨16, 5, 7, true⟩] (fun _ => ⟨0, 0⟩)
      (fun _ => 0)).2.2.2 =
      [Event.setRegs 7] ++
        ((stepOff ⟨fun _ => false, fun _ => 0, fun _ => 9⟩ [⟨16, 5, 7, true⟩]
            [⟨7, ⟨16, 0⟩⟩] 0).2.2 ++
          ((armBps (fun _ => 0) [⟨16, 5, 7, true⟩]).2 ++ [Event.cont 7])) ∧
    countSS 7 (stepOff ⟨fun _ => false, fun _ => 0, fun _ => 9⟩
      [⟨16, 5, 7, true⟩] [⟨7, ⟨16, 0⟩⟩] 0).2.2 = 1 := by
  have h := C2_step_off_before_arming ⟨fun _ => false, fun _ => 0, fun _ => 9⟩
    [⟨7, ⟨16, 0⟩⟩] [⟨16, 5, 7, true⟩] (fun _ => ⟨0, 0⟩) (fun _ => 0)
    (by decide) (by decide)
  refine ⟨h.1, ?_⟩
  have h4 := h.2.2.2 ⟨7, ⟨16, 0⟩⟩ (List.mem_singleton.mpr rfl) (by decide)
  simpa using h4

end Ptrace
